import Mathlib

/-!
Verification of the dlmbl/tracking candidate-graph tracking pipeline.

The definitions below are a shallow embedding of the two Python sources:
`solution.py` (candidate-graph construction, drift attributes, relabeling,
ILP setup) and `utils.py` (the custom `InOutSymmetry` and `MinTrackLength`
motile constraints).  Python floats are modelled as rationals, numpy arrays
as index functions or nested lists, fallible code as `Option`/`Except`.
-/

namespace Tracking

/-- A candidate-graph node as built in `solution.py`: a detection with an
integer id, an integer frame attribute `t`, and a 2D position `(x, y)`. -/
structure TNode where
  id : Nat
  t : Int
  x : ℚ
  y : ℚ
  deriving DecidableEq

/-- A candidate graph: nodes in insertion order, and directed edges stored
as (source id, target id) pairs. -/
structure TGraph where
  nodes : List TNode
  edges : List (Nat × Nat)
  deriving DecidableEq

/-- Incoming candidate edges of the node with id `n` (motile's
`prev_edges[node]`). -/
def inEdges (g : TGraph) (n : Nat) : List (Nat × Nat) :=
  g.edges.filter (fun e => e.2 = n)

/-- Outgoing candidate edges of the node with id `n` (motile's
`next_edges[node]`). -/
def outEdges (g : TGraph) (n : Nat) : List (Nat × Nat) :=
  g.edges.filter (fun e => e.1 = n)

/-- A binary ILP variable value as an integer coefficient contribution. -/
def boolInt (b : Bool) : Int := if b then 1 else 0

/-- An assignment of the binary decision variables of the tracking ILP:
selection per node, selection per edge, and the auxiliary appear/split
indicators per node. -/
structure Assign where
  sel : Nat → Bool
  esel : Nat × Nat → Bool
  appear : Nat → Bool
  split : Nat → Bool

/-- Sum of the selected-edge indicator variables over a list of edges,
as it appears in the linear constraints. -/
def edgeSum (a : Assign) (es : List (Nat × Nat)) : Int :=
  (es.map (fun e => boolInt (a.esel e))).sum

/- ### `add_cand_edges` (solution.py lines 377-416) -/

/-- Membership test of `scipy.spatial.KDTree.query_ball_tree`: node `v` is
within Euclidean distance `r` of node `u`.  Expressed via squared
distances to stay in ℚ: `dist u v ≤ r` iff `0 ≤ r` and `dist² ≤ r²`. -/
def withinDist (u v : TNode) (r : ℚ) : Bool :=
  decide (0 ≤ r) && decide ((u.x - v.x) ^ 2 + (u.y - v.y) ^ 2 ≤ r ^ 2)

/-- The nodes of one time frame, in graph insertion order
(`node_frame_dict[t]` from `_compute_node_frame_dict`). -/
def nodesInFrame (ns : List TNode) (t : Int) : List TNode :=
  ns.filter (fun n => n.t = t)

/-- Insert an integer into a sorted list, keeping it sorted. -/
def insertSorted (x : Int) : List Int → List Int
  | [] => [x]
  | y :: ys => if x ≤ y then x :: y :: ys else y :: insertSorted x ys

/-- Sort a list of integers ascending (Python's `sorted`). -/
def sortInts (l : List Int) : List Int :=
  l.foldr insertSorted []

/-- Evaluation of `sorted(node_frame_dict.keys())`: the distinct frames of the graph,
ascending. -/
def framesSorted (ns : List TNode) : List Int :=
  sortInts (ns.map (fun n => n.t)).dedup

/-- The main loop of `add_cand_edges`: iterate over the sorted frames,
skip a frame when `frame + 1` has no nodes (crucially *without* updating
`prev`), otherwise connect every `prev` node to every node of frame
`frame + 1` within `max_edge_distance` and advance `prev`. -/
def addCandEdgesLoop (ns : List TNode) (r : ℚ) :
    List TNode → List Int → List (Nat × Nat)
  | _, [] => []
  | prev, f :: rest =>
    if ns.any (fun n => n.t = f + 1) then
      let next := nodesInFrame ns (f + 1)
      (prev.flatMap (fun u =>
        ((next.filter (fun v => withinDist u v r)).map (fun v => (u.id, v.id)))))
        ++ addCandEdgesLoop ns r next rest
    else
      addCandEdgesLoop ns r prev rest

/-- Embedding of `add_cand_edges(cand_graph, max_edge_distance)` from `solution.py`.
Returns the list of directed edges added to the graph, or `none` when the
function raises: on an empty graph `frames[0]` throws an `IndexError`
before any edge is built. -/
def add_cand_edges (ns : List TNode) (r : ℚ) : Option (List (Nat × Nat)) :=
  match framesSorted ns with
  | [] => none
  | f0 :: _ => some (addCandEdgesLoop ns r (nodesInFrame ns f0) (framesSorted ns))

/- ### `MinTrackLength` (utils.py lines 54-82) -/

/-- The `MinTrackLength` constraint object: stores the requested minimum
number of edges per appearing track. -/
structure MinTrackLength where
  min_edges : Int
  deriving DecidableEq

/-- Embedding of `MinTrackLength.__init__`: rejects every `min_edges ≠ 1` with a
`NotImplementedError`, otherwise stores the value. -/
def MinTrackLength.make (min_edges : Int) : Except String MinTrackLength :=
  if min_edges ≠ 1 then
    .error "Can only enforce minimum track length of 1 edge."
  else
    .ok ⟨min_edges⟩

/-- Embedding of `MinTrackLength.instantiate`: for every node, the linear constraint
`appear[node] - Σ_{e ∈ next_edges[node]} edge[e] ≤ 0` must hold. -/
def minTrackLengthSat (g : TGraph) (a : Assign) : Prop :=
  ∀ n ∈ g.nodes, boolInt (a.appear n.id) - edgeSum a (outEdges g n.id) ≤ 0

/-- Modelled from the spec: the appear-variable linkage constraints that
motile's `NodeAppear` variable contributes (motile library code, not in
this repository).  Per the spec, the "appears" variable of a node is 1
exactly when the node is selected and has zero selected incoming edges. -/
def appearLinkage (g : TGraph) (a : Assign) : Prop :=
  ∀ n ∈ g.nodes,
    (a.appear n.id = true ↔
      (a.sel n.id = true ∧ ∀ e ∈ inEdges g n.id, a.esel e = false))

/- ### `nodes_from_segmentation` (solution.py lines 292-319) -/

/-- One `skimage.measure.regionprops` result: a label and a 2D centroid. -/
structure Region where
  label : Nat
  c0 : ℚ
  c1 : ℚ
  deriving DecidableEq

/-- A node built by `nodes_from_segmentation`, with its attribute map:
frame `t`, position `(x, y)` (the region centroid), and the sampled
probability `score`. -/
structure SegNode where
  id : Nat
  t : Nat
  x : ℚ
  y : ℚ
  score : ℚ
  deriving DecidableEq

/-- The inner loop of `nodes_from_segmentation` over the regionprops of
frame `t`: for each region take `node_id = label`, centroid coordinates
`x, y`, sample `probabilities[t, int(x // 2), int(y // 2)]` as the score,
assert that the id is not already in the graph, and append the node.
Returns `none` on the assertion failure. -/
def addNodesFrame (probs : Nat → Int → Int → ℚ) (t : Nat) :
    List Region → List SegNode → Option (List SegNode)
  | [], acc => some acc
  | r :: rest, acc =>
    if acc.any (fun n => n.id = r.label) then
      none
    else
      addNodesFrame probs t rest
        (acc ++ [⟨r.label, t, r.c0, r.c1, probs t ⌊r.c0 / 2⌋ ⌊r.c1 / 2⌋⟩])

/-- The outer loop of `nodes_from_segmentation` over the frames
`t in range(len(segmentation))`. -/
def nodesLoop (probs : Nat → Int → Int → ℚ) :
    List (List Region) → Nat → List SegNode → Option (List SegNode)
  | [], _, acc => some acc
  | fr :: rest, t, acc =>
    match addNodesFrame probs t fr acc with
    | none => none
    | some acc2 => nodesLoop probs rest (t + 1) acc2

/-- Embedding of `nodes_from_segmentation(segmentation)` from `solution.py`, with the
segmentation abstracted to its per-frame regionprops output and the
module-level `probabilities` array abstracted to an index function.
`none` models the `assert node_id not in cand_graph.nodes` failure. -/
def nodes_from_segmentation (frames : List (List Region))
    (probs : Nat → Int → Int → ℚ) : Option (List SegNode) :=
  nodesLoop probs frames 0 []

/-- The flattened stream of detection labels, in processing order. -/
def allLabels (frames : List (List Region)) : List Nat :=
  frames.flatMap (fun fr => fr.map (fun r => r.label))

/- ### `InOutSymmetry` (utils.py lines 15-51) -/

/-- The frames of the graph's nodes, in node order. -/
def frameList (g : TGraph) : List Int :=
  g.nodes.map (fun n => n.t)

/-- The smallest frame of the graph (0 for an empty graph). -/
def minFrame (g : TGraph) : Int :=
  match frameList g with
  | [] => 0
  | f :: fs => fs.foldl min f

/-- The largest frame of the graph (0 for an empty graph). -/
def maxFrame (g : TGraph) : Int :=
  match frameList g with
  | [] => 0
  | f :: fs => fs.foldl max f

/-- Modelled from the spec: motile's `TrackGraph.get_frames` (library
code, not in this repository) returns the graph's time range `(start,
end)` with `start` the first frame and `end` one past the last frame, so
that `end - 1` in `InOutSymmetry.instantiate` is the last frame. -/
def get_frames (g : TGraph) : Int × Int :=
  (minFrame g, maxFrame g + 1)

/-- One constraint produced by `InOutSymmetry.instantiate`: coefficient
plus one on each incoming-edge indicator, minus one on each outgoing-edge indicator,
relation `Equal`, value 0, for the node `node`. -/
structure SymConstraint where
  node : Nat
  inE : List (Nat × Nat)
  outE : List (Nat × Nat)
  deriving DecidableEq

/-- The meaning of one `InOutSymmetry` constraint: the sum of the
selected incoming edges equals the sum of the selected outgoing edges. -/
def symConstraintSat (a : Assign) (c : SymConstraint) : Prop :=
  edgeSum a c.inE - edgeSum a c.outE = 0

/-- Embedding of `InOutSymmetry.instantiate` from `utils.py`: for every node whose
frame attribute is not in `(start, end - 1)`, emit the in/out flow
equality constraint; nodes in the first or last frame get none. -/
def inOutSymmetry_instantiate (g : TGraph) : List SymConstraint :=
  (g.nodes.filter (fun n =>
      ¬ (n.t = (get_frames g).1 ∨ n.t = (get_frames g).2 - 1))).map
    (fun n => ⟨n.id, inEdges g n.id, outEdges g n.id⟩)

/- ### The basic ILP model (solution.py lines 485-510, motile modelled
from the spec) -/

/-- Modelled from the spec: the weight/constant parameters of the cost
terms attached in `solve_basic_optimization` (the cost classes are motile
library code, not in this repository).  Per the spec, a node-attribute
cost contributes `weight * attribute + constant` per selected node, an
edge-attribute cost the same per selected edge, and the appear/split
costs a fixed constant per appear/split indicator set to 1. -/
structure CostParams where
  nodeWeight : ℚ
  nodeConst : ℚ
  edgeWeight : ℚ
  edgeConst : ℚ
  appearConst : ℚ
  splitConst : ℚ

/-- The linear objective of the tracking ILP: the sum of all cost-term
contributions of an assignment, given the node score attribute `nscore`
and the edge distance attribute `edist`. -/
def objective (g : TGraph) (nscore : Nat → ℚ) (edist : Nat × Nat → ℚ)
    (cp : CostParams) (a : Assign) : ℚ :=
  (g.nodes.map (fun n =>
      if a.sel n.id then cp.nodeWeight * nscore n.id + cp.nodeConst else 0)).sum
    + (g.edges.map (fun e =>
      if a.esel e then cp.edgeWeight * edist e + cp.edgeConst else 0)).sum
    + (g.nodes.map (fun n => if a.appear n.id then cp.appearConst else 0)).sum
    + (g.nodes.map (fun n => if a.split n.id then cp.splitConst else 0)).sum

/-- Modelled from the spec: motile's edge-implies-endpoints constraints
(library code, not in this repository) — a selected edge forces both its
endpoints selected. -/
def edgeEndpoints (g : TGraph) (a : Assign) : Prop :=
  ∀ e ∈ g.edges, a.esel e = true → a.sel e.1 = true ∧ a.sel e.2 = true

/-- The `MaxParents(k)` constraint attached in
`solve_basic_optimization`: at most `k` selected incoming edges per
node. -/
def maxParentsSat (k : Int) (g : TGraph) (a : Assign) : Prop :=
  ∀ n ∈ g.nodes, edgeSum a (inEdges g n.id) ≤ k

/-- The `MaxChildren(k)` constraint attached in
`solve_basic_optimization`: at most `k` selected outgoing edges per
node. -/
def maxChildrenSat (k : Int) (g : TGraph) (a : Assign) : Prop :=
  ∀ n ∈ g.nodes, edgeSum a (outEdges g n.id) ≤ k

/-- Modelled from the spec: the split-variable linkage (motile's
`NodeSplit` variable, library code, not in this repository) — the
"splits" variable of a node is 1 exactly when the node is selected and
has exactly two selected outgoing edges. -/
def splitLinkage (g : TGraph) (a : Assign) : Prop :=
  ∀ n ∈ g.nodes,
    (a.split n.id = true ↔
      (a.sel n.id = true ∧ edgeSum a (outEdges g n.id) = 2))

/-- Feasibility under all constraints of the basic model set up in
`solve_basic_optimization`: edge-implies-endpoints, `MaxParents(1)`,
`MaxChildren(2)`, and the appear/split variable linkages. -/
def feasible (g : TGraph) (a : Assign) : Prop :=
  edgeEndpoints g a ∧ maxParentsSat 1 g a ∧ maxChildrenSat 2 g a ∧
    appearLinkage g a ∧ splitLinkage g a

/-- The empty selection: 0 nodes, 0 edges, no appears, no splits. -/
def emptyAssign : Assign :=
  ⟨fun _ => false, fun _ => false, fun _ => false, fun _ => false⟩

/- ### `add_drift_dist_attr` (solution.py lines 834-847) -/

/-- Position lookup `cand_graph.nodes[i]`: the `(x, y)` attributes of the
node with id `i` (the edges of a candidate graph only reference existing
nodes). -/
def nodePos (g : TGraph) (i : Nat) : ℚ × ℚ :=
  match g.nodes.find? (fun n => n.id = i) with
  | some n => (n.x, n.y)
  | none => (0, 0)

/-- Embedding of `add_drift_dist_attr(cand_graph, drift)` from `solution.py`: for
every edge `(source, target)`, compute
`expected_target_pos = source_pos + drift` and store
`np.linalg.norm(expected_target_pos - target_pos)` in the edge's
`"drift_dist"` attribute.  The Euclidean norm (the only float operation
that leaves ℚ) is abstracted into the parameter `norm`, applied to the
two components of `expected_target_pos - target_pos`; the result is the
list of `(edge, drift_dist)` attribute writes, in edge order. -/
def add_drift_dist_attr (norm : ℚ → ℚ → ℝ) (g : TGraph) (drift : ℚ × ℚ) :
    List ((Nat × Nat) × ℝ) :=
  g.edges.map (fun e =>
    (e, norm ((nodePos g e.1).1 + drift.1 - (nodePos g e.2).1)
      ((nodePos g e.1).2 + drift.2 - (nodePos g e.2).2)))

/- ### `relabel_segmentation` (solution.py lines 568-593) -/

/-- A numpy array of shape `(t, y, x)` with integer entries, modelled as
its shape together with an index function. -/
structure Arr3 where
  dims : Nat × Nat × Nat
  val : Nat → Nat → Nat → Nat

/-- A node of the solution graph as used by `relabel_segmentation`: its
id (the original segmentation label), its frame `t`, and the
`tracklet_id` attribute assigned by `assign_tracklet_ids` (external
motile_toolbox code; the track ids are taken as given node attributes). -/
structure SolNode where
  id : Nat
  t : Nat
  track : Nat
  deriving DecidableEq

/-- Embedding of `np.zeros_like(segmentation)`. -/
def zerosLike (seg : Arr3) : Arr3 :=
  ⟨seg.dims, fun _ _ _ => 0⟩

/-- One iteration of the `relabel_segmentation` loop:
`tracked_masks[t][segmentation[t] == node] = track_id` for the node's
frame `t`. -/
def writeNode (seg : Arr3) (out : Arr3) (n : SolNode) : Arr3 :=
  ⟨out.dims, fun t y x =>
    if t = n.t ∧ seg.val t y x = n.id then n.track else out.val t y x⟩

/-- Embedding of `relabel_segmentation(solution_nx_graph, segmentation)` from
`solution.py`: start from a zero array of the segmentation's shape and
write every solution node's track id over its original region. -/
def relabel_segmentation (nodes : List SolNode) (seg : Arr3) : Arr3 :=
  nodes.foldl (writeNode seg) (zerosLike seg)

/- ### Concrete inputs used by the counterexample and the witnesses -/

/-- A candidate graph whose frames are 0, 2 and 3: frame 1 and frame 4
are empty, all three detections sit at the origin. -/
def gapNodes : List TNode :=
  [⟨1, 0, 0, 0⟩, ⟨2, 2, 0, 0⟩, ⟨3, 3, 0, 0⟩]

/-- A candidate graph with a single isolated detection (no candidate
edges at all). -/
def isolatedGraph : TGraph := ⟨[⟨7, 0, 0, 0⟩], []⟩

/-- A three-frame chain candidate graph: one detection per frame, linked
frame to frame. -/
def chainGraph : TGraph :=
  ⟨[⟨1, 0, 0, 0⟩, ⟨2, 1, 0, 0⟩, ⟨3, 2, 0, 0⟩], [(1, 2), (2, 3)]⟩

/-- Two frames of regionprops with distinct labels. -/
def segFramesW : List (List Region) := [[⟨1, 0, 0⟩], [⟨2, 2, 3⟩]]

/-- A constant probability map. -/
def probsW : Nat → Int → Int → ℚ := fun _ _ _ => 0

/-- The node list that `nodes_from_segmentation` builds from
`segFramesW` and `probsW`. -/
def segNodesW : List SegNode := [⟨1, 0, 0, 0, 0⟩, ⟨2, 1, 2, 3, 0⟩]

/-- A two-node, one-edge candidate graph for the drift-distance
attribute. -/
def driftGraphW : TGraph := ⟨[⟨1, 0, 0, 0⟩, ⟨2, 1, 3, 4⟩], [(1, 2)]⟩

/-- A one-frame 2x2 segmentation with a single labeled pixel. -/
def segW : Arr3 :=
  ⟨(1, 2, 2), fun t y x => if t = 0 ∧ y = 0 ∧ x = 0 then 1 else 0⟩

/-- A solution graph with one node (label 1, frame 0, track id 5). -/
def solNodesW : List SolNode := [⟨1, 0, 5⟩]

end Tracking

/-! ## Theorems -/

namespace Tracking

/- ### List helpers -/

theorem insertSorted_ne_nil (x : Int) (l : List Int) : insertSorted x l ≠ [] := by
  cases l with
  | nil => simp [insertSorted]
  | cons y ys =>
    simp only [insertSorted]
    split <;> simp

theorem sortInts_eq_nil (l : List Int) : sortInts l = [] ↔ l = [] := by
  cases l with
  | nil => simp [sortInts]
  | cons x xs =>
    simp only [sortInts, List.foldr_cons]
    constructor
    · intro h
      exact absurd h (insertSorted_ne_nil x _)
    · intro h
      exact absurd h (List.cons_ne_nil x xs)

theorem framesSorted_eq_nil (ns : List TNode) : framesSorted ns = [] ↔ ns = [] := by
  rw [framesSorted, sortInts_eq_nil, List.dedup_eq_nil, List.map_eq_nil_iff]

theorem edgeSum_eq_zero {a : Assign} {es : List (Nat × Nat)}
    (h : ∀ e ∈ es, a.esel e = false) : edgeSum a es = 0 := by
  induction es with
  | nil => rfl
  | cons e es ih =>
    have he : a.esel e = false := h e (List.mem_cons_self e es)
    have hrest : edgeSum a es = 0 := ih (fun x hx => h x (List.mem_cons_of_mem e hx))
    simp [edgeSum, boolInt, he] at hrest ⊢
    simpa [edgeSum, boolInt] using hrest

theorem edgeSum_emptyAssign (es : List (Nat × Nat)) : edgeSum emptyAssign es = 0 :=
  edgeSum_eq_zero (fun _ _ => rfl)

/- ### C9 -/

/-- C9: constructing `MinTrackLength(min_edges)` raises a
`NotImplementedError` if and only if `min_edges ≠ 1`; for `min_edges = 1`
construction succeeds and stores the value. -/
theorem MinTrackLength_make_spec (m : Int) :
    ((∃ e, MinTrackLength.make m = .error e) ↔ m ≠ 1) ∧
      MinTrackLength.make 1 = .ok ⟨1⟩ := by
  refine ⟨⟨?_, ?_⟩, rfl⟩
  · rintro ⟨e, he⟩ hm
    simp [MinTrackLength.make, hm] at he
  · intro hm
    exact ⟨"Can only enforce minimum track length of 1 edge.",
      by simp [MinTrackLength.make, hm]⟩

/- ### C10 -/

/-- C10: calling `add_cand_edges` on a candidate graph with zero nodes
raises an uncaught exception (indexing `frames[0]` of the empty sorted
frame list) rather than returning normally; for every nonempty graph the
call returns normally, so only a missing next frame is tolerated, not a
fully empty graph. -/
theorem add_cand_edges_empty_graph_raises (ns : List TNode) (r : ℚ) :
    add_cand_edges ns r = none ↔ ns = [] := by
  constructor
  · intro h
    rw [add_cand_edges] at h
    split at h
    · next heq => exact (framesSorted_eq_nil ns).mp heq
    · next => exact absurd h (by simp)
  · intro h
    subst h
    rfl

/- ### C1 -/

/-- C1 (counterexample evaluation): on the graph `gapNodes` whose frames
are 0, 2 and 3, `add_cand_edges` with `max_edge_distance = 5` adds
exactly the edge `(1, 3)` — an edge from the frame-0 node to the frame-3
node, three frames apart — and does *not* add the edge `(2, 3)` even
though node 2 (frame 2) and node 3 (frame 3) are temporally adjacent and
within distance 5: the claimed adjacent-frames-only edge set is
violated because the skip branch fails to advance `prev`. -/
theorem add_cand_edges_frame_gap_bug :
    add_cand_edges gapNodes 5 = some [(1, 3)] ∧
      (∃ u ∈ gapNodes, u.id = 1 ∧ u.t = 0) ∧
      (∃ v ∈ gapNodes, v.id = 3 ∧ v.t = 3) ∧
      (∃ u ∈ gapNodes, ∃ v ∈ gapNodes,
        u.id = 2 ∧ v.id = 3 ∧ v.t = u.t + 1 ∧ withinDist u v 5 = true) ∧
      (2, 3) ∉ (add_cand_edges gapNodes 5).getD [] := by
  have hfr : framesSorted gapNodes = [0, 2, 3] := by decide
  have hn0 : nodesInFrame gapNodes 0 = [⟨1, 0, 0, 0⟩] := by decide
  have hn3 : nodesInFrame gapNodes 3 = [⟨3, 3, 0, 0⟩] := by decide
  have hany1 : gapNodes.any (fun n => decide (n.t = 0 + 1)) = false := by decide
  have hany3 : gapNodes.any (fun n => decide (n.t = 2 + 1)) = true := by decide
  have hany4 : gapNodes.any (fun n => decide (n.t = 3 + 1)) = false := by decide
  have hw13 : withinDist ⟨1, 0, 0, 0⟩ ⟨3, 3, 0, 0⟩ 5 = true := by
    simp only [withinDist, Bool.and_eq_true, decide_eq_true_eq]
    norm_num
  have hw23 : withinDist ⟨2, 2, 0, 0⟩ ⟨3, 3, 0, 0⟩ 5 = true := by
    simp only [withinDist, Bool.and_eq_true, decide_eq_true_eq]
    norm_num
  have hmain : add_cand_edges gapNodes 5 = some [(1, 3)] := by
    rw [add_cand_edges, hfr]
    simp only [addCandEdgesLoop, hany1, hany3, hany4, if_false, if_true,
      Bool.false_eq_true, if_neg, reduceIte]
    rw [hn0]
    norm_num [hn3, hw13, List.filter]
  refine ⟨hmain, ?_, ?_, ?_, ?_⟩
  · exact ⟨⟨1, 0, 0, 0⟩, by decide, rfl, rfl⟩
  · exact ⟨⟨3, 3, 0, 0⟩, by decide, rfl, rfl⟩
  · exact ⟨⟨2, 2, 0, 0⟩, by decide, ⟨3, 3, 0, 0⟩, by decide, rfl, rfl,
      by decide, hw23⟩
  · rw [hmain]
    decide

/- ### C2 -/

/-- C2: under the constraints emitted by `MinTrackLength.instantiate`
together with the appear-variable linkage, every feasible assignment
satisfies: a node whose appears variable is 1 has at least one selected
outgoing candidate edge; consequently a node with no incoming and no
outgoing candidate edges — an isolated single detection — is forced
unselected. -/
theorem minTrackLength_forces_isolated_unselected
    (g : TGraph) (a : Assign)
    (hmtl : minTrackLengthSat g a) (hap : appearLinkage g a) :
    (∀ n ∈ g.nodes, a.appear n.id = true →
        ∃ e ∈ outEdges g n.id, a.esel e = true) ∧
      ∀ n ∈ g.nodes, inEdges g n.id = [] → outEdges g n.id = [] →
        a.sel n.id = false := by
  have key : ∀ n ∈ g.nodes, a.appear n.id = true →
      ∃ e ∈ outEdges g n.id, a.esel e = true := by
    intro n hn happ
    by_contra hno
    push_neg at hno
    have hz : edgeSum a (outEdges g n.id) = 0 :=
      edgeSum_eq_zero (fun e he => by
        have := hno e he
        simpa using this)
    have hc := hmtl n hn
    rw [happ, hz] at hc
    simp [boolInt] at hc
  refine ⟨key, ?_⟩
  intro n hn hin hout
  by_contra hsel
  rw [Bool.not_eq_false] at hsel
  have happ : a.appear n.id = true := by
    exact (hap n hn).mpr ⟨hsel, by rw [hin]; intro e he; cases he⟩
  obtain ⟨e, he, -⟩ := key n hn happ
  rw [hout] at he
  cases he

/-- C2 witness: on the one-node, zero-edge graph with the all-false
assignment (which satisfies both constraint families), the theorem
applies and in particular forces the isolated node unselected. -/
theorem minTrackLength_forces_isolated_unselected_witness :
    (∀ n ∈ isolatedGraph.nodes, emptyAssign.appear n.id = true →
        ∃ e ∈ outEdges isolatedGraph n.id, emptyAssign.esel e = true) ∧
      ∀ n ∈ isolatedGraph.nodes, inEdges isolatedGraph n.id = [] →
        outEdges isolatedGraph n.id = [] → emptyAssign.sel n.id = false :=
  minTrackLength_forces_isolated_unselected isolatedGraph emptyAssign
    (by unfold minTrackLengthSat; decide) (by unfold appearLinkage; decide)

/- ### C3 helpers -/

theorem foldl_min_le_init (l : List Int) (a : Int) : l.foldl min a ≤ a := by
  induction l generalizing a with
  | nil => exact le_refl a
  | cons b l ih =>
    calc (b :: l).foldl min a = l.foldl min (min a b) := rfl
    _ ≤ min a b := ih (min a b)
    _ ≤ a := min_le_left a b

theorem foldl_min_le_mem (l : List Int) (a x : Int) (hx : x ∈ l) :
    l.foldl min a ≤ x := by
  induction l generalizing a with
  | nil => cases hx
  | cons b l ih =>
    rcases List.mem_cons.mp hx with h | h
    · subst h
      calc (x :: l).foldl min a = l.foldl min (min a x) := rfl
      _ ≤ min a x := foldl_min_le_init l (min a x)
      _ ≤ x := min_le_right a x
    · exact ih (min a b) h

theorem init_le_foldl_max (l : List Int) (a : Int) : a ≤ l.foldl max a := by
  induction l generalizing a with
  | nil => exact le_refl a
  | cons b l ih =>
    calc a ≤ max a b := le_max_left a b
    _ ≤ l.foldl max (max a b) := ih (max a b)
    _ = (b :: l).foldl max a := rfl

theorem mem_le_foldl_max (l : List Int) (a x : Int) (hx : x ∈ l) :
    x ≤ l.foldl max a := by
  induction l generalizing a with
  | nil => cases hx
  | cons b l ih =>
    rcases List.mem_cons.mp hx with h | h
    · subst h
      calc x ≤ max a x := le_max_right a x
      _ ≤ l.foldl max (max a x) := init_le_foldl_max l (max a x)
      _ = (x :: l).foldl max a := rfl
    · exact ih (max a b) h

theorem minFrame_le {g : TGraph} {n : TNode} (hn : n ∈ g.nodes) :
    minFrame g ≤ n.t := by
  rcases hns : g.nodes with _ | ⟨m, ms⟩
  · rw [hns] at hn; cases hn
  · have hfl : frameList g = m.t :: ms.map (fun k => k.t) := by
      rw [frameList, hns, List.map_cons]
    rw [minFrame, hfl]
    rw [hns] at hn
    rcases List.mem_cons.mp hn with h | h
    · subst h
      exact foldl_min_le_init _ _
    · exact foldl_min_le_mem _ _ _ (List.mem_map_of_mem (fun k => k.t) h)

theorem le_maxFrame {g : TGraph} {n : TNode} (hn : n ∈ g.nodes) :
    n.t ≤ maxFrame g := by
  rcases hns : g.nodes with _ | ⟨m, ms⟩
  · rw [hns] at hn; cases hn
  · have hfl : frameList g = m.t :: ms.map (fun k => k.t) := by
      rw [frameList, hns, List.map_cons]
    rw [maxFrame, hfl]
    rw [hns] at hn
    rcases List.mem_cons.mp hn with h | h
    · subst h
      exact init_le_foldl_max _ _
    · exact mem_le_foldl_max _ _ _ (List.mem_map_of_mem (fun k => k.t) h)

/- ### C3 -/

/-- C3: `InOutSymmetry.instantiate` produces the in/out flow equality
(sum of selected incoming edge variables equals sum of selected outgoing
edge variables) for exactly those nodes whose frame lies strictly
between the first and the last frame of the graph's time range, and no
constraint for any node in the first or the last frame. -/
theorem inOutSymmetry_interior_frames_only
    (g : TGraph) (hnd : (g.nodes.map (fun n => n.id)).Nodup)
    (n : TNode) (hn : n ∈ g.nodes) :
    ((∃ c ∈ inOutSymmetry_instantiate g, c.node = n.id) ↔
        minFrame g < n.t ∧ n.t < maxFrame g) ∧
      ∀ c ∈ inOutSymmetry_instantiate g, c.node = n.id →
        c.inE = inEdges g n.id ∧ c.outE = outEdges g n.id ∧
          ∀ a : Assign, (symConstraintSat a c ↔
            edgeSum a (inEdges g n.id) = edgeSum a (outEdges g n.id)) := by
  have hinj : ∀ m ∈ g.nodes, m.id = n.id → m = n := by
    intro m hm hid
    exact List.inj_on_of_nodup_map hnd hm hn hid
  have hmem : ∀ c, c ∈ inOutSymmetry_instantiate g ↔
      ∃ m ∈ g.nodes, ¬ (m.t = minFrame g ∨ m.t = maxFrame g + 1 - 1) ∧
        c = ⟨m.id, inEdges g m.id, outEdges g m.id⟩ := by
    intro c
    simp only [inOutSymmetry_instantiate, get_frames, List.mem_map,
      List.mem_filter, decide_eq_true_eq]
    constructor
    · rintro ⟨m, ⟨hm, hp⟩, rfl⟩
      exact ⟨m, hm, hp, rfl⟩
    · rintro ⟨m, hm, hp, rfl⟩
      exact ⟨m, ⟨hm, hp⟩, rfl⟩
  constructor
  · constructor
    · rintro ⟨c, hc, hcn⟩
      rcases (hmem c).mp hc with ⟨m, hm, hp, rfl⟩
      have : m = n := hinj m hm hcn
      subst this
      push_neg at hp
      obtain ⟨h1, h2⟩ := hp
      have hmin := minFrame_le hm
      have hmax := le_maxFrame hm
      omega
    · rintro ⟨h1, h2⟩
      refine ⟨⟨n.id, inEdges g n.id, outEdges g n.id⟩, ?_, rfl⟩
      exact (hmem _).mpr ⟨n, hn, by omega, rfl⟩
  · intro c hc hcn
    rcases (hmem c).mp hc with ⟨m, hm, hp, rfl⟩
    have : m = n := hinj m hm hcn
    subst this
    refine ⟨rfl, rfl, ?_⟩
    intro a
    dsimp only [symConstraintSat]
    omega

/-- C3 witness: on the three-frame chain graph, the middle node (frame
1, strictly between the first frame 0 and the last frame 2) receives
the flow-symmetry constraint with exactly its incident edges. -/
theorem inOutSymmetry_interior_frames_only_witness :
    ((∃ c ∈ inOutSymmetry_instantiate chainGraph, c.node = (⟨2, 1, 0, 0⟩ : TNode).id) ↔
        minFrame chainGraph < (⟨2, 1, 0, 0⟩ : TNode).t ∧
          (⟨2, 1, 0, 0⟩ : TNode).t < maxFrame chainGraph) ∧
      ∀ c ∈ inOutSymmetry_instantiate chainGraph, c.node = (⟨2, 1, 0, 0⟩ : TNode).id →
        c.inE = inEdges chainGraph (⟨2, 1, 0, 0⟩ : TNode).id ∧
          c.outE = outEdges chainGraph (⟨2, 1, 0, 0⟩ : TNode).id ∧
          ∀ a : Assign, (symConstraintSat a c ↔
            edgeSum a (inEdges chainGraph (⟨2, 1, 0, 0⟩ : TNode).id) =
              edgeSum a (outEdges chainGraph (⟨2, 1, 0, 0⟩ : TNode).id)) :=
  inOutSymmetry_interior_frames_only chainGraph (by decide) ⟨2, 1, 0, 0⟩ (by decide)

/- ### C4 helpers -/

theorem sum_map_zero {α : Type} (l : List α) :
    (l.map (fun _ => (0 : ℚ))).sum = 0 := by
  induction l with
  | nil => rfl
  | cons x l ih => simp [ih]

/- ### C4 -/

/-- C4: when every per-node and per-edge cost contribution and every
constant is non-negative, the empty selection is feasible under all
constraints of the basic model and achieves the minimum objective (its
objective is 0 and no assignment does better), so the optimal solution
is the empty graph. -/
theorem nonneg_costs_empty_solution_optimal
    (g : TGraph) (nscore : Nat → ℚ) (edist : Nat × Nat → ℚ) (cp : CostParams)
    (hnode : ∀ n ∈ g.nodes, 0 ≤ cp.nodeWeight * nscore n.id + cp.nodeConst)
    (hedge : ∀ e ∈ g.edges, 0 ≤ cp.edgeWeight * edist e + cp.edgeConst)
    (hnc : 0 ≤ cp.nodeConst) (hec : 0 ≤ cp.edgeConst)
    (hac : 0 ≤ cp.appearConst) (hsc : 0 ≤ cp.splitConst) :
    feasible g emptyAssign ∧
      objective g nscore edist cp emptyAssign = 0 ∧
      ∀ a : Assign, objective g nscore edist cp emptyAssign ≤
        objective g nscore edist cp a := by
  have hfeas : feasible g emptyAssign := by
    refine ⟨?_, ?_, ?_, ?_, ?_⟩
    · intro e he h
      simp [emptyAssign] at h
    · intro n hn
      rw [edgeSum_emptyAssign]
      omega
    · intro n hn
      rw [edgeSum_emptyAssign]
      omega
    · intro n hn
      simp [emptyAssign]
    · intro n hn
      simp [emptyAssign, edgeSum_emptyAssign]
  have hobj0 : objective g nscore edist cp emptyAssign = 0 := by
    rw [objective]
    simp [emptyAssign, sum_map_zero]
  have hnn : ∀ a : Assign, 0 ≤ objective g nscore edist cp a := by
    intro a
    rw [objective]
    have t1 : 0 ≤ (g.nodes.map (fun n =>
        if a.sel n.id then cp.nodeWeight * nscore n.id + cp.nodeConst else 0)).sum := by
      apply List.sum_nonneg
      intro x hx
      obtain ⟨n, hn, rfl⟩ := List.mem_map.mp hx
      split
      · exact hnode n hn
      · exact le_refl 0
    have t2 : 0 ≤ (g.edges.map (fun e =>
        if a.esel e then cp.edgeWeight * edist e + cp.edgeConst else 0)).sum := by
      apply List.sum_nonneg
      intro x hx
      obtain ⟨e, he, rfl⟩ := List.mem_map.mp hx
      split
      · exact hedge e he
      · exact le_refl 0
    have t3 : 0 ≤ (g.nodes.map (fun n =>
        if a.appear n.id then cp.appearConst else 0)).sum := by
      apply List.sum_nonneg
      intro x hx
      obtain ⟨n, hn, rfl⟩ := List.mem_map.mp hx
      split
      · exact hac
      · exact le_refl 0
    have t4 : 0 ≤ (g.nodes.map (fun n =>
        if a.split n.id then cp.splitConst else 0)).sum := by
      apply List.sum_nonneg
      intro x hx
      obtain ⟨n, hn, rfl⟩ := List.mem_map.mp hx
      split
      · exact hsc
      · exact le_refl 0
    exact add_nonneg (add_nonneg (add_nonneg t1 t2) t3) t4
  refine ⟨hfeas, hobj0, ?_⟩
  intro a
  rw [hobj0]
  exact hnn a

/-- C4 witness: on the three-frame chain graph with unit node scores,
edge distance 2, unit weights and non-negative constants, the empty
selection is feasible and optimal. -/
theorem nonneg_costs_empty_solution_optimal_witness :
    feasible chainGraph emptyAssign ∧
      objective chainGraph (fun _ => 1) (fun _ => 2) ⟨1, 0, 1, 0, 1, 1⟩
        emptyAssign = 0 ∧
      ∀ a : Assign,
        objective chainGraph (fun _ => 1) (fun _ => 2) ⟨1, 0, 1, 0, 1, 1⟩
            emptyAssign ≤
          objective chainGraph (fun _ => 1) (fun _ => 2) ⟨1, 0, 1, 0, 1, 1⟩ a :=
  nonneg_costs_empty_solution_optimal chainGraph (fun _ => 1) (fun _ => 2)
    ⟨1, 0, 1, 0, 1, 1⟩ (fun n _ => by norm_num) (fun e _ => by norm_num)
    (by norm_num) (by norm_num) (by norm_num) (by norm_num)

/- ### C5 helpers -/

theorem allLabels_cons (fr : List Region) (rest : List (List Region)) :
    allLabels (fr :: rest) = fr.map (fun r => r.label) ++ allLabels rest := by
  simp [allLabels]

theorem addNodesFrame_ids (probs : Nat → Int → Int → ℚ) (t : Nat)
    (regs : List Region) :
    ∀ acc : List SegNode, (acc.map (fun n => n.id)).Nodup →
      (addNodesFrame probs t regs acc = none ↔
        ¬ (acc.map (fun n => n.id) ++ regs.map (fun r => r.label)).Nodup) ∧
      ∀ gr, addNodesFrame probs t regs acc = some gr →
        gr.map (fun n => n.id) =
          acc.map (fun n => n.id) ++ regs.map (fun r => r.label) := by
  induction regs with
  | nil =>
    intro acc hnd
    constructor
    · simp [addNodesFrame, hnd]
    · intro gr h
      rw [addNodesFrame] at h
      cases h
      simp
  | cons r rest ih =>
    intro acc hnd
    rw [addNodesFrame]
    cases hdup : acc.any (fun n => n.id = r.label) with
    | true =>
      have hin : r.label ∈ acc.map (fun n => n.id) := by
        obtain ⟨n, hn, hl⟩ := List.any_eq_true.mp hdup
        rw [decide_eq_true_eq] at hl
        exact hl ▸ List.mem_map_of_mem (fun n => n.id) hn
      have hnot : ¬ (acc.map (fun n => n.id) ++
          (r :: rest).map (fun r => r.label)).Nodup := by
        intro hcon
        have hdisj := List.disjoint_of_nodup_append hcon
        exact hdisj hin (by simp)
      simp only [List.map_cons] at hnot
      simp only [if_true]
      exact ⟨by simp [hnot], fun gr h => by cases h⟩
    | false =>
      have hnotin : r.label ∉ acc.map (fun n => n.id) := by
        intro hin
        obtain ⟨n, hn, hl⟩ := List.mem_map.mp hin
        have : acc.any (fun n => n.id = r.label) = true :=
          List.any_eq_true.mpr ⟨n, hn, by simp [hl]⟩
        rw [hdup] at this
        cases this
      set nd : SegNode := ⟨r.label, t, r.c0, r.c1, probs t ⌊r.c0 / 2⌋ ⌊r.c1 / 2⌋⟩
          with hnd2
      have hids : (acc ++ [nd]).map (fun n => n.id) =
          acc.map (fun n => n.id) ++ [r.label] := by
        simp [hnd2]
      have hnd' : ((acc ++ [nd]).map (fun n => n.id)).Nodup := by
        rw [hids]
        exact List.Nodup.append hnd (List.nodup_singleton _)
          (fun x hx hx' => by
            rw [List.mem_singleton] at hx'
            exact hnotin (hx' ▸ hx))
      obtain ⟨hiff, hsome⟩ := ih (acc ++ [nd]) hnd'
      rw [hids] at hiff hsome
      have hassoc : acc.map (fun n => n.id) ++ [r.label] ++
          rest.map (fun r => r.label) =
          acc.map (fun n => n.id) ++ (r :: rest).map (fun r => r.label) := by
        simp
      rw [hassoc] at hiff hsome
      simp only [Bool.false_eq_true, if_false]
      exact ⟨hiff, hsome⟩

theorem nodesLoop_ids (probs : Nat → Int → Int → ℚ)
    (frames : List (List Region)) :
    ∀ (t : Nat) (acc : List SegNode), (acc.map (fun n => n.id)).Nodup →
      (nodesLoop probs frames t acc = none ↔
        ¬ (acc.map (fun n => n.id) ++ allLabels frames).Nodup) ∧
      ∀ gr, nodesLoop probs frames t acc = some gr →
        gr.map (fun n => n.id) = acc.map (fun n => n.id) ++ allLabels frames := by
  induction frames with
  | nil =>
    intro t acc hnd
    constructor
    · simp [nodesLoop, allLabels, hnd]
    · intro gr h
      rw [nodesLoop] at h
      cases h
      simp [allLabels]
  | cons fr rest ih =>
    intro t acc hnd
    rw [nodesLoop, allLabels_cons]
    obtain ⟨hiff1, hsome1⟩ := addNodesFrame_ids probs t fr acc hnd
    cases haf : addNodesFrame probs t fr acc with
    | none =>
      have hnot : ¬ (acc.map (fun n => n.id) ++ fr.map (fun r => r.label)).Nodup :=
        hiff1.mp haf
      have hnot2 : ¬ (acc.map (fun n => n.id) ++
          (fr.map (fun r => r.label) ++ allLabels rest)).Nodup := by
        intro hcon
        apply hnot
        exact hcon.sublist
          ((List.sublist_append_left (fr.map (fun r => r.label))
            (allLabels rest)).append_left (acc.map (fun n => n.id)))
      exact ⟨by simp [hnot2], fun gr h => by cases h⟩
    | some acc2 =>
      have hids2 : acc2.map (fun n => n.id) =
          acc.map (fun n => n.id) ++ fr.map (fun r => r.label) := hsome1 acc2 haf
      have hnd2 : (acc2.map (fun n => n.id)).Nodup := by
        by_contra hcon
        rw [hids2] at hcon
        have : addNodesFrame probs t fr acc = none := hiff1.mpr hcon
        rw [haf] at this
        cases this
      obtain ⟨hiff2, hsome2⟩ := ih (t + 1) acc2 hnd2
      rw [hids2, List.append_assoc] at hiff2 hsome2
      exact ⟨hiff2, hsome2⟩

/- ### C5 -/

/-- C5: `nodes_from_segmentation` aborts with an assertion failure
exactly when some detection label duplicates the id of a node already
added in the same build (same frame or an earlier one), and whenever it
does return a graph, the node ids are the label stream itself and in
particular pairwise distinct — no graph with a duplicated node id is
ever produced. -/
theorem nodes_from_segmentation_duplicate_aborts
    (frames : List (List Region)) (probs : Nat → Int → Int → ℚ) :
    (nodes_from_segmentation frames probs = none ↔
        ¬ (allLabels frames).Nodup) ∧
      ∀ gr, nodes_from_segmentation frames probs = some gr →
        gr.map (fun n => n.id) = allLabels frames ∧
          (gr.map (fun n => n.id)).Nodup := by
  obtain ⟨hiff, hsome⟩ := nodesLoop_ids probs frames 0 [] (by simp)
  simp only [List.map_nil, List.nil_append] at hiff hsome
  refine ⟨hiff, fun gr h => ⟨hsome gr h, ?_⟩⟩
  rw [hsome gr h]
  by_contra hcon
  have : nodes_from_segmentation frames probs = none := hiff.mpr hcon
  rw [h] at this
  cases this

/-- C5 witness: on two frames with distinct labels the build returns a
graph whose ids are exactly the labels, without duplicates. -/
theorem nodes_from_segmentation_duplicate_aborts_witness :
    segNodesW.map (fun n => n.id) = allLabels segFramesW ∧
      (segNodesW.map (fun n => n.id)).Nodup :=
  (nodes_from_segmentation_duplicate_aborts segFramesW probsW).2 segNodesW
    (by decide)

/- ### C6 helpers -/

theorem addNodesFrame_attrs (frames : List (List Region))
    (probs : Nat → Int → Int → ℚ) (t : Nat) (regs : List Region) :
    ∀ acc gr : List SegNode,
      (∀ r ∈ regs, r ∈ frames.getD t []) →
      (∀ n ∈ acc, n.score = probs n.t ⌊n.x / 2⌋ ⌊n.y / 2⌋ ∧
        ∃ r ∈ frames.getD n.t [], r.label = n.id ∧ n.x = r.c0 ∧ n.y = r.c1) →
      addNodesFrame probs t regs acc = some gr →
      ∀ n ∈ gr, n.score = probs n.t ⌊n.x / 2⌋ ⌊n.y / 2⌋ ∧
        ∃ r ∈ frames.getD n.t [], r.label = n.id ∧ n.x = r.c0 ∧ n.y = r.c1 := by
  induction regs with
  | nil =>
    intro acc gr _ hacc h
    rw [addNodesFrame] at h
    cases h
    exact hacc
  | cons r rest ih =>
    intro acc gr hsub hacc h
    rw [addNodesFrame] at h
    cases hdup : acc.any (fun n => n.id = r.label) with
    | true =>
      rw [hdup] at h
      cases h
    | false =>
      rw [hdup] at h
      simp only [Bool.false_eq_true, if_false] at h
      refine ih (acc ++ [⟨r.label, t, r.c0, r.c1, probs t ⌊r.c0 / 2⌋ ⌊r.c1 / 2⌋⟩])
        gr (fun q hq => hsub q (List.mem_cons_of_mem r hq)) ?_ h
      intro n hn
      rcases List.mem_append.mp hn with hn | hn
      · exact hacc n hn
      · rw [List.mem_singleton] at hn
        subst hn
        exact ⟨rfl, r, hsub r (List.mem_cons_self r rest), rfl, rfl, rfl⟩

theorem nodesLoop_attrs (frames : List (List Region))
    (probs : Nat → Int → Int → ℚ) (fs : List (List Region)) :
    ∀ (t : Nat) (acc gr : List SegNode),
      (∀ j, fs.getD j [] = frames.getD (t + j) []) →
      (∀ n ∈ acc, n.score = probs n.t ⌊n.x / 2⌋ ⌊n.y / 2⌋ ∧
        ∃ r ∈ frames.getD n.t [], r.label = n.id ∧ n.x = r.c0 ∧ n.y = r.c1) →
      nodesLoop probs fs t acc = some gr →
      ∀ n ∈ gr, n.score = probs n.t ⌊n.x / 2⌋ ⌊n.y / 2⌋ ∧
        ∃ r ∈ frames.getD n.t [], r.label = n.id ∧ n.x = r.c0 ∧ n.y = r.c1 := by
  induction fs with
  | nil =>
    intro t acc gr _ hacc h
    rw [nodesLoop] at h
    cases h
    exact hacc
  | cons fr rest ih =>
    intro t acc gr hfs hacc h
    rw [nodesLoop] at h
    cases haf : addNodesFrame probs t fr acc with
    | none =>
      rw [haf] at h
      cases h
    | some acc2 =>
      rw [haf] at h
      have hfr : fr = frames.getD t [] := by
        have := hfs 0
        simpa using this
      have hacc2 := addNodesFrame_attrs frames probs t fr acc acc2
        (fun q hq => hfr ▸ hq) hacc haf
      refine ih (t + 1) acc2 gr ?_ hacc2 h
      intro j
      have := hfs (j + 1)
      simp only [List.getD_cons_succ] at this
      rw [this]
      congr 1
      omega

/- ### C6 -/

/-- C6: every node produced by `nodes_from_segmentation` carries its
frame `t` and its position `(x, y)` equal to the centroid of its region,
and its score equals the probability map sampled at
`(t, floor(x / 2), floor(y / 2))` — the node's position scaled to the
half-resolution map. -/
theorem nodes_from_segmentation_score_sampling
    (frames : List (List Region)) (probs : Nat → Int → Int → ℚ)
    (gr : List SegNode) (h : nodes_from_segmentation frames probs = some gr) :
    ∀ n ∈ gr, n.score = probs n.t ⌊n.x / 2⌋ ⌊n.y / 2⌋ ∧
      ∃ r ∈ frames.getD n.t [], r.label = n.id ∧ n.x = r.c0 ∧ n.y = r.c1 := by
  refine nodesLoop_attrs frames probs frames 0 [] gr ?_ ?_ h
  · intro j
    simp
  · intro n hn
    cases hn

/-- C6 witness: on the two-frame input the second node has frame 1,
position equal to its region centroid (2, 3), and score
`probsW 1 ⌊2 / 2⌋ ⌊3 / 2⌋`. -/
theorem nodes_from_segmentation_score_sampling_witness :
    (⟨2, 1, 2, 3, 0⟩ : SegNode).score =
        probsW (⟨2, 1, 2, 3, 0⟩ : SegNode).t ⌊(⟨2, 1, 2, 3, 0⟩ : SegNode).x / 2⌋
          ⌊(⟨2, 1, 2, 3, 0⟩ : SegNode).y / 2⌋ ∧
      ∃ r ∈ segFramesW.getD (⟨2, 1, 2, 3, 0⟩ : SegNode).t [],
        r.label = (⟨2, 1, 2, 3, 0⟩ : SegNode).id ∧
          (⟨2, 1, 2, 3, 0⟩ : SegNode).x = r.c0 ∧
          (⟨2, 1, 2, 3, 0⟩ : SegNode).y = r.c1 :=
  nodes_from_segmentation_score_sampling segFramesW probsW segNodesW
    (by decide) ⟨2, 1, 2, 3, 0⟩ (by decide)

/- ### C7 helpers -/

theorem map_fst_map_pair {α β : Type} (f : α → β) (l : List α) :
    (l.map (fun e => (e, f e))).map Prod.fst = l := by
  induction l with
  | nil => rfl
  | cons e l ih => simp [ih]

/- ### C7 -/

/-- C7: after `add_drift_dist_attr`, the attribute writes cover exactly
the candidate edges (no node attribute and no other edge attribute is
touched), and every edge `(s, t)` carries a `drift_dist` equal to the
Euclidean norm of `position(s) + drift - position(t)` — a pure function
of the two endpoint positions and the global drift vector. -/
theorem add_drift_dist_attr_spec
    (norm : ℚ → ℚ → ℝ)
    (hnorm : ∀ p q : ℚ, norm p q = Real.sqrt ((p : ℝ) ^ 2 + (q : ℝ) ^ 2))
    (g : TGraph) (drift : ℚ × ℚ) :
    ((add_drift_dist_attr norm g drift).map Prod.fst = g.edges) ∧
      ∀ e ∈ g.edges, ∀ s t : TNode,
        g.nodes.find? (fun n => n.id = e.1) = some s →
        g.nodes.find? (fun n => n.id = e.2) = some t →
        (e, Real.sqrt (((s.x + drift.1 - t.x : ℚ) : ℝ) ^ 2 +
            ((s.y + drift.2 - t.y : ℚ) : ℝ) ^ 2)) ∈
          add_drift_dist_attr norm g drift := by
  constructor
  · rw [add_drift_dist_attr]
    exact map_fst_map_pair _ _
  · intro e he s t hs ht
    have hps : nodePos g e.1 = (s.x, s.y) := by rw [nodePos, hs]
    have hpt : nodePos g e.2 = (t.x, t.y) := by rw [nodePos, ht]
    refine List.mem_map.mpr ⟨e, he, ?_⟩
    rw [hps, hpt, hnorm]

/-- C7 witness: on the two-node one-edge graph with drift (1, 1), the
edge (1, 2) carries the Euclidean norm of (0, 0) + (1, 1) - (3, 4). -/
theorem add_drift_dist_attr_spec_witness :
    ((add_drift_dist_attr
          (fun p q => Real.sqrt ((p : ℝ) ^ 2 + (q : ℝ) ^ 2))
          driftGraphW (1, 1)).map Prod.fst = driftGraphW.edges) ∧
      ((1, 2), Real.sqrt (((0 + 1 - 3 : ℚ) : ℝ) ^ 2 +
          ((0 + 1 - 4 : ℚ) : ℝ) ^ 2)) ∈
        add_drift_dist_attr
          (fun p q => Real.sqrt ((p : ℝ) ^ 2 + (q : ℝ) ^ 2))
          driftGraphW (1, 1) := by
  have h := add_drift_dist_attr_spec
    (fun p q => Real.sqrt ((p : ℝ) ^ 2 + (q : ℝ) ^ 2))
    (fun p q => rfl) driftGraphW (1, 1)
  exact ⟨h.1, h.2 (1, 2) (by decide) ⟨1, 0, 0, 0⟩ ⟨2, 1, 3, 4⟩
    (by decide) (by decide)⟩

/- ### C8 helpers -/

theorem foldl_writeNode_dims (seg : Arr3) (l : List SolNode) :
    ∀ a : Arr3, (l.foldl (writeNode seg) a).dims = a.dims := by
  induction l with
  | nil => intro a; rfl
  | cons m l ih =>
    intro a
    rw [List.foldl_cons, ih]
    rfl

theorem foldl_writeNode_noMatch (seg : Arr3) (t y x : Nat) (l : List SolNode) :
    ∀ a : Arr3, (∀ n ∈ l, ¬ (t = n.t ∧ seg.val t y x = n.id)) →
      (l.foldl (writeNode seg) a).val t y x = a.val t y x := by
  induction l with
  | nil => intro a _; rfl
  | cons m l ih =>
    intro a h
    rw [List.foldl_cons,
      ih (writeNode seg a m) (fun n hn => h n (List.mem_cons_of_mem m hn))]
    show (if t = m.t ∧ seg.val t y x = m.id then m.track else a.val t y x) =
      a.val t y x
    exact if_neg (h m (List.mem_cons_self m l))

theorem foldl_writeNode_match (seg : Arr3) (t y x : Nat) (l : List SolNode) :
    ∀ a : Arr3, (l.map (fun n => n.id)).Nodup → ∀ n ∈ l, t = n.t →
      seg.val t y x = n.id → (l.foldl (writeNode seg) a).val t y x = n.track := by
  induction l with
  | nil => intro a _ n hn; cases hn
  | cons m l ih =>
    intro a hnd n hn ht hv
    have hnd0 : (m.id :: l.map (fun q => q.id)).Nodup := by
      rw [List.map_cons] at hnd
      exact hnd
    have hnd' := List.nodup_cons.mp hnd0
    rw [List.foldl_cons]
    rcases List.mem_cons.mp hn with h | h
    · subst h
      have hrest : ∀ k ∈ l, ¬ (t = k.t ∧ seg.val t y x = k.id) := by
        rintro k hk ⟨hkt, hkv⟩
        have hkid : k.id = n.id := by rw [← hkv, hv]
        exact hnd'.1 (hkid ▸ List.mem_map_of_mem (fun q => q.id) hk)
      rw [foldl_writeNode_noMatch seg t y x l _ hrest]
      show (if t = n.t ∧ seg.val t y x = n.id then n.track else a.val t y x) =
        n.track
      exact if_pos ⟨ht, hv⟩
    · exact ih (writeNode seg a m) hnd'.2 n h ht hv

/- ### C8 -/

/-- C8: `relabel_segmentation` returns an array of the same shape as the
input segmentation in which every pixel of a solution node's original
region (segmentation value equal to the node id, in the node's frame) is
set to that node's track id, and every pixel belonging to no solution
node's region is 0; the input segmentation is a read-only argument of
the pure transform. -/
theorem relabel_segmentation_spec (nodes : List SolNode) (seg : Arr3)
    (hnd : (nodes.map (fun n => n.id)).Nodup) :
    (relabel_segmentation nodes seg).dims = seg.dims ∧
      (∀ n ∈ nodes, ∀ t y x, t = n.t → seg.val t y x = n.id →
        (relabel_segmentation nodes seg).val t y x = n.track) ∧
      ∀ t y x, (∀ n ∈ nodes, ¬ (t = n.t ∧ seg.val t y x = n.id)) →
        (relabel_segmentation nodes seg).val t y x = 0 := by
  refine ⟨?_, ?_, ?_⟩
  · rw [relabel_segmentation, foldl_writeNode_dims]
    rfl
  · intro n hn t y x ht hv
    exact foldl_writeNode_match seg t y x nodes (zerosLike seg) hnd n hn ht hv
  · intro t y x h
    rw [relabel_segmentation, foldl_writeNode_noMatch seg t y x nodes _ h]
    rfl

/-- C8 witness: with one solution node (label 1, frame 0, track 5) on a
1x2x2 segmentation whose only labeled pixel is (0, 0, 0), the output has
the segmentation's shape, carries 5 at the region pixel and 0 at an
unlabeled pixel. -/
theorem relabel_segmentation_spec_witness :
    (relabel_segmentation solNodesW segW).dims = segW.dims ∧
      (∀ n ∈ solNodesW, ∀ t y x, t = n.t → segW.val t y x = n.id →
        (relabel_segmentation solNodesW segW).val t y x = n.track) ∧
      ∀ t y x, (∀ n ∈ solNodesW, ¬ (t = n.t ∧ segW.val t y x = n.id)) →
        (relabel_segmentation solNodesW segW).val t y x = 0 :=
  relabel_segmentation_spec solNodesW segW (by decide)

end Tracking
